import Mathlib

/-!
Verification of the SSC12 hybrid single-source transitive-closure program
(src/SSC12.py).  The Python functions `ComputeSSC1Cost`,
`GetAllAdjacentNodesFromSet`, `SSC1`, `SSC2`, `SSCWorker`,
`SourceVertexQueueAdder` and the drain loop of `Closure` are embedded as
Lean functions below.  Python's unbounded `while` loops are embedded with
an explicit fuel parameter; a separate theorem shows that the concrete
fuel `closureFuel` is always sufficient, so the fuel is an artifact of the
embedding, not of the algorithm.
-/

namespace SSC12

/-- The adjacency store built by `ParseInputfile` (src/SSC12.py lines
125-160): a finite Python dict from vertex ids to the set of successor
vertex ids.  `keys` is the (finite) key set of the dict and `adjOf` gives
the stored successor set of each key. -/
structure AdjStore where
  keys : Finset Nat
  adjOf : Nat → Finset Nat

/-- `adjacentLookup.get(v, None)`: `some` of the stored successor set when
`v` is a key of the dict, `none` otherwise. -/
def AdjStore.get? (A : AdjStore) (v : Nat) : Option (Finset Nat) :=
  if v ∈ A.keys then some (A.adjOf v) else none

/-- The successor set of `v`: the stored set for keys, empty otherwise
(this is `adjacentLookup.get(v, set())`). -/
def AdjStore.neighbors (A : AdjStore) (v : Nat) : Finset Nat :=
  (A.get? v).getD ∅

/-- The directed edge relation of the stored graph. -/
def AdjStore.Edge (A : AdjStore) (u v : Nat) : Prop :=
  v ∈ A.neighbors u

/-- Reachability from `s` by a directed path of any length (reflexive and
transitive, as in spec section 3). -/
def Reachable (A : AdjStore) (s v : Nat) : Prop :=
  Relation.ReflTransGen A.Edge s v

/-- All vertices that occur as a successor of some key of the store. -/
def AdjStore.targets (A : AdjStore) : Finset Nat :=
  A.keys.biUnion A.neighbors

/-- `ComputeSSC1Cost` (src/SSC12.py lines 267-279).  The running sum over
the frontier adds `len(adjacent)` for each vertex whose lookup is not
`None`; then `len(tc) * len(bigDeltaTC)` is added, and the second cost is
`len(tc) + len(bigDeltaTC)`. -/
def ComputeSSC1Cost (A : AdjStore) (bigDeltaTC tc : Finset Nat) : Nat × Nat :=
  let costSmallDelta :=
    (∑ vertex ∈ bigDeltaTC,
      match A.get? vertex with
      | some adjacent => adjacent.card
      | none => 0) + tc.card * bigDeltaTC.card
  let costBigDelta := tc.card + bigDeltaTC.card
  (costSmallDelta, costBigDelta)

/-- `GetAllAdjacentNodesFromSet` (src/SSC12.py lines 307-313): union of the
stored successor sets of the input set (vertices with no entry, or an
empty entry, contribute nothing). -/
def GetAllAdjacentNodesFromSet (A : AdjStore) (inputSet : Finset Nat) : Finset Nat :=
  inputSet.biUnion fun vertex =>
    match A.get? vertex with
    | some adjacentSet => adjacentSet
    | none => ∅

/-- The loop of `SSC1` (src/SSC12.py lines 256-263), with fuel.  Result
`none` means the fuel ran out (never happens, see `ssc1_terminates`);
`some none` is the Python `return None` (Aborted); `some (some tc)` is a
normal return of the closure `tc`. -/
def SSC1loop (A : AdjStore) (alphaThreshold betaThreshold : ℚ) :
    Nat → Finset Nat → Finset Nat → Option (Option (Finset Nat))
  | 0, _, _ => none
  | fuel + 1, bigDeltaTC, tc =>
    if bigDeltaTC = ∅ then some (some tc)
    else
      let costs := ComputeSSC1Cost A bigDeltaTC tc
      if (costs.1 : ℚ) > alphaThreshold ∨ (costs.2 : ℚ) > betaThreshold then
        some none
      else
        let smallDeltaTC := GetAllAdjacentNodesFromSet A bigDeltaTC
        let bigDeltaTC2 := smallDeltaTC \ tc
        SSC1loop A alphaThreshold betaThreshold fuel bigDeltaTC2 (tc ∪ bigDeltaTC2)

/-- `SSC1` (src/SSC12.py lines 251-264): `tc` and `bigDeltaTC` both start
as the singleton of the source vertex. -/
def SSC1 (A : AdjStore) (sourceVertex : Nat) (alphaThreshold betaThreshold : ℚ)
    (fuel : Nat) : Option (Option (Finset Nat)) :=
  SSC1loop A alphaThreshold betaThreshold fuel {sourceVertex} {sourceVertex}

/-- One expansion step of the SSC1 loop body (lines 261-263), on the state
`(bigDeltaTC, tc)`. -/
def SSC1step (A : AdjStore) (st : Finset Nat × Finset Nat) : Finset Nat × Finset Nat :=
  let smallDeltaTC := GetAllAdjacentNodesFromSet A st.1
  let bigDeltaTC2 := smallDeltaTC \ st.2
  (bigDeltaTC2, st.2 ∪ bigDeltaTC2)

/-- The state `(bigDeltaTC, tc)` of the SSC1 loop before its `k`-th
iteration. -/
def SSC1state (A : AdjStore) (sourceVertex k : Nat) : Finset Nat × Finset Nat :=
  (SSC1step A)^[k] ({sourceVertex}, {sourceVertex})

/-- The cost check of line 258 passes on state `st` (no threshold is
exceeded). -/
def CostOk (A : AdjStore) (alphaThreshold betaThreshold : ℚ)
    (st : Finset Nat × Finset Nat) : Prop :=
  ¬(((ComputeSSC1Cost A st.1 st.2).1 : ℚ) > alphaThreshold ∨
    ((ComputeSSC1Cost A st.1 st.2).2 : ℚ) > betaThreshold)

instance (A : AdjStore) (alphaThreshold betaThreshold : ℚ)
    (st : Finset Nat × Finset Nat) :
    Decidable (CostOk A alphaThreshold betaThreshold st) := by
  unfold CostOk
  infer_instance

/-- The SSC1 loop run from source `s` aborts exactly at its `k`-th
iteration: every earlier iteration sees a non-empty frontier and passes
the cost check, and iteration `k` sees a non-empty frontier and fails it. -/
def AbortsAt (A : AdjStore) (s : Nat) (alphaThreshold betaThreshold : ℚ)
    (k : Nat) : Prop :=
  (∀ j, j < k → (SSC1state A s j).1 ≠ ∅ ∧
      CostOk A alphaThreshold betaThreshold (SSC1state A s j)) ∧
  (SSC1state A s k).1 ≠ ∅ ∧ ¬CostOk A alphaThreshold betaThreshold (SSC1state A s k)

instance (A : AdjStore) (s : Nat) (alphaThreshold betaThreshold : ℚ) (k : Nat) :
    Decidable (AbortsAt A s alphaThreshold betaThreshold k) := by
  unfold AbortsAt
  infer_instance

/-- Fuel that is always sufficient for the SSC1 and SSC2 loops from source
`s`: every accumulated set stays inside `insert s A.targets`, and the loop
adds a vertex (or stops within two iterations). -/
def closureFuel (A : AdjStore) (s : Nat) : Nat :=
  (insert s A.targets).card + 2

/-- The inner guarded append of SSC2 (src/SSC12.py lines 294-298): if the
adjacent node is not yet visited, mark it visited and append it to the
scratch array at the next free slot. -/
def SSC2mark (st : Finset Nat × List Nat) (adjacentNode : Nat) : Finset Nat × List Nat :=
  if adjacentNode ∈ st.1 then st
  else (insert adjacentNode st.1, st.2 ++ [adjacentNode])

/-- One round of the SSC2 loop (lines 289-300): for each of the `L` active
entries `Z` of `bigDeltaTC` (read in order, only the written prefix),
visit the unvisited successors of `Z`.  The visited bit-vector `d` is
modelled as the finite set of indices holding `true`, and the filled
prefix `smallDeltaTC[0..l)` as the list of appended entries.  Python
iterates the successor set in unspecified order; the embedding iterates
it in ascending order (the visited set and the set of appended entries do
not depend on the order). -/
def SSC2round (A : AdjStore) (frontier : List Nat) (d : Finset Nat) :
    Finset Nat × List Nat :=
  frontier.foldl
    (fun st Z => (((A.get? Z).getD ∅).sort (· ≤ ·)).foldl SSC2mark st)
    (d, [])

/-- The loop of `SSC2` (lines 288-300), with fuel; `none` means the fuel
ran out (never happens for the fuel `closureFuel`, see `ssc2loop_ne_none`). -/
def SSC2loop (A : AdjStore) : Nat → List Nat → Finset Nat → Option (Finset Nat)
  | 0, _, _ => none
  | fuel + 1, frontier, d =>
    if frontier = [] then some d
    else
      let res := SSC2round A frontier d
      SSC2loop A fuel res.2 res.1

/-- `SSC2` (lines 282-304): clear `d`, mark and seed the source vertex,
run the frontier loop, then collect the visited indices below
`maxVertexNumber` (the final scan of lines 301-303). -/
def SSC2 (A : AdjStore) (sourceVertex maxVertexNumber fuel : Nat) : Option (Finset Nat) :=
  (SSC2loop A fuel [sourceVertex] {sourceVertex}).map fun d =>
    d.filter fun i => i < maxVertexNumber

/-- One iteration of the SSC2 loop on the state
`(written prefix of bigDeltaTC, visited set)`. -/
def SSC2stateStep (A : AdjStore) (st : List Nat × Finset Nat) : List Nat × Finset Nat :=
  ((SSC2round A st.1 st.2).2, (SSC2round A st.1 st.2).1)

/-- The state of the SSC2 loop before its `k`-th iteration, started from
`sourceVertex`. -/
def SSC2state (A : AdjStore) (sourceVertex k : Nat) : List Nat × Finset Nat :=
  (SSC2stateStep A)^[k] ([sourceVertex], {sourceVertex})

/-- Which engine produced a result pushed by a worker. -/
inductive Engine
  | ssc1
  | ssc2
deriving DecidableEq

/-- The SSC2 result a worker pushes for vertex `v` (lines 242 and 246),
with the always-sufficient fuel. -/
def SSC2run (A : AdjStore) (v maxVertexNumber : Nat) : Finset Nat :=
  (SSC2 A v maxVertexNumber (closureFuel A v)).getD ∅

/-- The second loop of `SSCWorker` (lines 243-248): after the switch,
every pulled vertex is computed with SSC2, until the sentinel `none`. -/
def SSCWorkerSSC2 (A : AdjStore) (maxVertexNumber : Nat) :
    List (Option Nat) → List (Engine × Finset Nat)
  | [] => []
  | none :: _ => []
  | some v :: rest =>
    (Engine.ssc2, SSC2run A v maxVertexNumber) :: SSCWorkerSSC2 A maxVertexNumber rest

/-- `SSCWorker` (lines 221-248), as a function from the sequence of work
items this worker pulls from the shared queue to the sequence of results
it pushes, each tagged with the engine that produced it.  A pulled vertex
is run through SSC1; on success the closure is pushed; on abort
(`thresholdExceeded`) the same vertex is recomputed with SSC2 and the
worker permanently moves to the second (SSC2-only) loop. -/
def SSCWorker (A : AdjStore) (alphaThreshold betaThreshold : ℚ) (maxVertexNumber : Nat) :
    List (Option Nat) → List (Engine × Finset Nat)
  | [] => []
  | none :: _ => []
  | some v :: rest =>
    match SSC1 A v alphaThreshold betaThreshold (closureFuel A v) with
    | some (some tc) =>
      (Engine.ssc1, tc) :: SSCWorker A alphaThreshold betaThreshold maxVertexNumber rest
    | _ => (Engine.ssc2, SSC2run A v maxVertexNumber) :: SSCWorkerSSC2 A maxVertexNumber rest

/-- The items a worker consumes from the queue before terminating: both
worker loops (lines 224-235 and 243-248) pull items until the first
sentinel `none` and then break, so consumption is independent of the
worker's mode. -/
def workerConsumed : List (Option Nat) → List (Option Nat)
  | [] => []
  | none :: _ => [none]
  | some v :: rest => some v :: workerConsumed rest

/-- A bounded FIFO put (`vertexQueue.put`): appends when the queue has
spare capacity, and raises `queue.Full` (modelled as `none`) when the
capacity is exhausted. -/
def putBounded (capacity : Nat) (q : List (Option Nat)) (x : Option Nat) :
    Option (List (Option Nat)) :=
  if q.length < capacity then some (q ++ [x]) else none

/-- Sequentially put a list of work items; on the first `Full` the adder
gives up (the except-handler of lines 214-218, which exits with status 1,
modelled as `Except.error`). -/
def enqueueAll (capacity : Nat) (q : List (Option Nat)) :
    List (Option Nat) → Except Unit (List (Option Nat))
  | [] => Except.ok q
  | x :: xs =>
    match putBounded capacity q x with
    | some q2 => enqueueAll capacity q2 xs
    | none => Except.error ()

/-- `SourceVertexQueueAdder` (lines 203-218): enqueue every source vertex,
then `cpuCount` sentinel values; `Except.error` is the nonzero `exit(1)`. -/
def SourceVertexQueueAdder (capacity : Nat) (sourceVertices : List Nat) (cpuCount : Nat) :
    Except Unit (List (Option Nat)) :=
  enqueueAll capacity [] (sourceVertices.map some ++ List.replicate cpuCount none)

/-- The worker count chosen by `Closure` (line 166):
`min(multiprocessing.cpu_count(), len(sourceVertices))`. -/
def closureWorkerCount (cpuCount : Nat) (sourceVertices : List Nat) : Nat :=
  min cpuCount sourceVertices.length

/-- Outcome of the drain loop of `Closure` (lines 190-200). -/
inductive CoordOutcome
  | finished (closureSet : Finset Nat)
  | fatalExit
  | blocked
deriving DecidableEq

/-- The drain loop of `Closure` (lines 190-200), on the (finite) sequence
of per-source results that ever arrive on the result queue.
`adderFailed` is the observation `adderProcess.exitcode is not None and
adderProcess.exitcode != 0`; when it holds, the loop body calls `exit(1)`
(`fatalExit`) right after folding in a received result.  When the loop
needs another result and none ever arrives, the blocking `SSCQueue.get()`
call never returns (`blocked`). -/
def coordinatorDrain (adderFailed : Bool) (sourceVertexCount : Nat) :
    List (Finset Nat) → Nat → Finset Nat → CoordOutcome
  | [], doneCounter, closureSet =>
    if sourceVertexCount ≤ doneCounter then CoordOutcome.finished closureSet
    else CoordOutcome.blocked
  | ssc :: rest, doneCounter, closureSet =>
    if sourceVertexCount ≤ doneCounter then CoordOutcome.finished closureSet
    else
      if adderFailed then CoordOutcome.fatalExit
      else coordinatorDrain adderFailed sourceVertexCount rest (doneCounter + 1) (closureSet ∪ ssc)

/-- Loop invariant of SSC1 for the state `(bigDeltaTC, tc)` and source
`s`: the source is in `tc`, the frontier is inside `tc`, every member of
`tc` is reachable from `s`, and `tc` is closed under edges out of already
expanded vertices (members of `tc` outside the current frontier). -/
def SSC1Inv (A : AdjStore) (s : Nat) (st : Finset Nat × Finset Nat) : Prop :=
  s ∈ st.2 ∧ st.1 ⊆ st.2 ∧ (∀ v ∈ st.2, Reachable A s v) ∧
    ∀ v ∈ st.2, v ∉ st.1 → ∀ w ∈ A.neighbors v, w ∈ st.2

/-- Invariant of the scratch state `(visited, appended entries)` inside
one SSC2 round, relative to the visited set `d0` at the start of the
round: the appended entries are distinct and are exactly the vertices
newly visited during this round. -/
def MarkInv (d0 : Finset Nat) (st : Finset Nat × List Nat) : Prop :=
  st.2.Nodup ∧ st.2.toFinset = st.1 \ d0 ∧ d0 ⊆ st.1

/-- Loop invariant of SSC2 for the state `(frontier, d)` and source `s`. -/
def SSC2Inv (A : AdjStore) (s : Nat) (st : List Nat × Finset Nat) : Prop :=
  s ∈ st.2 ∧ st.1.toFinset ⊆ st.2 ∧ (∀ v ∈ st.2, Reachable A s v) ∧
    ∀ v ∈ st.2, v ∉ st.1 → ∀ w ∈ A.neighbors v, w ∈ st.2

/-- A small concrete store for witnesses: edges 0→1 and 1→2. -/
def sampleStore : AdjStore :=
  ⟨{0, 1}, fun v => if v = 0 then {1} else if v = 1 then {2} else ∅⟩

lemma outDegree_match (A : AdjStore) (v : Nat) :
    (match A.get? v with
      | some adjacent => adjacent.card
      | none => 0) = (A.neighbors v).card := by
  unfold AdjStore.neighbors
  cases A.get? v <;> rfl

lemma neighbors_eq_match (A : AdjStore) (v : Nat) :
    (match A.get? v with
      | some adjacentSet => adjacentSet
      | none => (∅ : Finset Nat)) = A.neighbors v := by
  unfold AdjStore.neighbors
  cases A.get? v <;> rfl

lemma getAll_eq_biUnion (A : AdjStore) (S : Finset Nat) :
    GetAllAdjacentNodesFromSet A S = S.biUnion A.neighbors := by
  unfold GetAllAdjacentNodesFromSet
  exact Finset.biUnion_congr rfl fun v _ => neighbors_eq_match A v

lemma mem_getAll (A : AdjStore) (S : Finset Nat) (w : Nat) :
    w ∈ GetAllAdjacentNodesFromSet A S ↔ ∃ v ∈ S, w ∈ A.neighbors v := by
  rw [getAll_eq_biUnion]
  exact Finset.mem_biUnion

lemma neighbors_subset_targets (A : AdjStore) (v : Nat) :
    A.neighbors v ⊆ A.targets := by
  intro w hw
  have hv : v ∈ A.keys := by
    by_contra h
    have hempty : A.neighbors v = ∅ := by
      simp [AdjStore.neighbors, AdjStore.get?, h]
    rw [hempty] at hw
    exact absurd hw (Finset.not_mem_empty w)
  exact Finset.mem_biUnion.mpr ⟨v, hv, hw⟩

lemma getAll_subset_targets (A : AdjStore) (S : Finset Nat) :
    GetAllAdjacentNodesFromSet A S ⊆ A.targets := by
  intro w hw
  obtain ⟨v, _, hvw⟩ := (mem_getAll A S w).mp hw
  exact neighbors_subset_targets A v hvw

/-- A set containing the source, all of whose members are reachable, and
which is closed under following edges, is exactly the reachable set. -/
lemma closed_mem_iff_reachable (A : AdjStore) (s : Nat) (d : Finset Nat)
    (hs : s ∈ d) (hreach : ∀ v ∈ d, Reachable A s v)
    (hclosed : ∀ v ∈ d, ∀ w ∈ A.neighbors v, w ∈ d) (v : Nat) :
    v ∈ d ↔ Reachable A s v := by
  constructor
  · exact hreach v
  · intro h
    induction h with
    | refl => exact hs
    | tail _ hbc ih => exact hclosed _ ih _ hbc

lemma ssc1Inv_init (A : AdjStore) (s : Nat) : SSC1Inv A s ({s}, {s}) := by
  refine ⟨Finset.mem_singleton_self s, Finset.Subset.refl _, ?_, ?_⟩
  · intro v hv
    rw [Finset.mem_singleton] at hv
    subst hv
    exact Relation.ReflTransGen.refl
  · intro v hv hnv
    exact absurd hv hnv

lemma ssc1Inv_step (A : AdjStore) (s : Nat) (st : Finset Nat × Finset Nat)
    (h : SSC1Inv A s st) : SSC1Inv A s (SSC1step A st) := by
  obtain ⟨Δ, tc⟩ := st
  obtain ⟨hs, hsub, hreach, hclosed⟩ := h
  refine ⟨Finset.mem_union_left _ hs, Finset.subset_union_right, ?_, ?_⟩
  · intro v hv
    rcases Finset.mem_union.mp hv with h | h
    · exact hreach v h
    · have hvN := (Finset.mem_sdiff.mp h).1
      obtain ⟨u, hu, hvw⟩ := (mem_getAll A Δ v).mp hvN
      exact Relation.ReflTransGen.tail (hreach u (hsub hu)) hvw
  · intro v hv hvn w hw
    have hvtc : v ∈ tc := by
      rcases Finset.mem_union.mp hv with h | h
      · exact h
      · exact absurd h hvn
    by_cases hvΔ : v ∈ Δ
    · have hwN : w ∈ GetAllAdjacentNodesFromSet A Δ := (mem_getAll A Δ w).mpr ⟨v, hvΔ, hw⟩
      by_cases hwtc : w ∈ tc
      · exact Finset.mem_union_left _ hwtc
      · exact Finset.mem_union_right _ (Finset.mem_sdiff.mpr ⟨hwN, hwtc⟩)
    · exact Finset.mem_union_left _ (hclosed v hvtc hvΔ w hw)

lemma ssc1loop_sound (A : AdjStore) (s : Nat) (alphaThreshold betaThreshold : ℚ) :
    ∀ (fuel : Nat) (Δ tc r : Finset Nat), SSC1Inv A s (Δ, tc) →
      SSC1loop A alphaThreshold betaThreshold fuel Δ tc = some (some r) →
      ∀ v, v ∈ r ↔ Reachable A s v := by
  intro fuel
  induction fuel with
  | zero =>
    intro Δ tc r _ h
    simp [SSC1loop] at h
  | succ n ih =>
    intro Δ tc r hinv h
    simp only [SSC1loop] at h
    by_cases hΔ : Δ = ∅
    · rw [if_pos hΔ] at h
      have hr : tc = r := by
        injection h with h1
        injection h1
      subst hr
      subst hΔ
      exact closed_mem_iff_reachable A s tc hinv.1 hinv.2.2.1
        (fun v hv w hw => hinv.2.2.2 v hv (Finset.not_mem_empty v) w hw)
    · rw [if_neg hΔ] at h
      by_cases hc : ((ComputeSSC1Cost A Δ tc).1 : ℚ) > alphaThreshold ∨
          ((ComputeSSC1Cost A Δ tc).2 : ℚ) > betaThreshold
      · rw [if_pos hc] at h
        exact absurd h (by simp)
      · rw [if_neg hc] at h
        exact ih _ _ r (ssc1Inv_step A s (Δ, tc) hinv) h

lemma ssc1loop_ne_none (A : AdjStore) (s : Nat) (alphaThreshold betaThreshold : ℚ) :
    ∀ (fuel : Nat) (Δ tc : Finset Nat), tc ⊆ insert s A.targets →
      (insert s A.targets).card + 2 ≤ fuel + tc.card →
      SSC1loop A alphaThreshold betaThreshold fuel Δ tc ≠ none := by
  intro fuel
  induction fuel with
  | zero =>
    intro Δ tc hsub hcard
    exfalso
    have h1 : tc.card ≤ (insert s A.targets).card := Finset.card_le_card hsub
    omega
  | succ n ih =>
    intro Δ tc hsub hcard
    simp only [SSC1loop]
    by_cases hΔ : Δ = ∅
    · simp [hΔ]
    · rw [if_neg hΔ]
      by_cases hc : ((ComputeSSC1Cost A Δ tc).1 : ℚ) > alphaThreshold ∨
          ((ComputeSSC1Cost A Δ tc).2 : ℚ) > betaThreshold
      · simp [hc]
      · rw [if_neg hc]
        by_cases hΔ2 : GetAllAdjacentNodesFromSet A Δ \ tc = ∅
        · cases n with
          | zero =>
            exfalso
            have h1 : tc.card ≤ (insert s A.targets).card := Finset.card_le_card hsub
            omega
          | succ m =>
            rw [hΔ2]
            simp [SSC1loop]
        · apply ih
          · apply Finset.union_subset hsub
            intro w hw
            exact Finset.mem_insert_of_mem
              (getAll_subset_targets A Δ ((Finset.mem_sdiff.mp hw).1))
          · have hdisj : Disjoint (GetAllAdjacentNodesFromSet A Δ \ tc) tc :=
              Finset.sdiff_disjoint
            rw [Finset.card_union_of_disjoint hdisj.symm]
            have hpos : 1 ≤ (GetAllAdjacentNodesFromSet A Δ \ tc).card :=
              Finset.card_pos.mpr (Finset.nonempty_iff_ne_empty.mpr hΔ2)
            omega

lemma ssc1_sound (A : AdjStore) (s : Nat) (alphaThreshold betaThreshold : ℚ)
    (fuel : Nat) (r : Finset Nat)
    (h : SSC1 A s alphaThreshold betaThreshold fuel = some (some r)) :
    ∀ v, v ∈ r ↔ Reachable A s v :=
  ssc1loop_sound A s alphaThreshold betaThreshold fuel {s} {s} r (ssc1Inv_init A s) h

/-- The SSC1 loop returns the abort signal exactly when some iteration
within the fuel bound sees a non-empty frontier whose costs violate a
threshold, all earlier iterations having passed the check. -/
lemma ssc1loop_abort_iff (A : AdjStore) (alphaThreshold betaThreshold : ℚ) :
    ∀ (fuel : Nat) (st : Finset Nat × Finset Nat),
      SSC1loop A alphaThreshold betaThreshold fuel st.1 st.2 = some none ↔
        ∃ k, k < fuel ∧
          (∀ j, j < k → ((SSC1step A)^[j] st).1 ≠ ∅ ∧
            CostOk A alphaThreshold betaThreshold ((SSC1step A)^[j] st)) ∧
          ((SSC1step A)^[k] st).1 ≠ ∅ ∧
          ¬CostOk A alphaThreshold betaThreshold ((SSC1step A)^[k] st) := by
  intro fuel
  induction fuel with
  | zero =>
    intro st
    simp [SSC1loop]
  | succ n ih =>
    intro st
    obtain ⟨Δ, tc⟩ := st
    simp only [SSC1loop]
    by_cases hΔ : Δ = ∅
    · rw [if_pos hΔ]
      constructor
      · intro h
        exact absurd h (by simp)
      · rintro ⟨k, _, hprev, hne, _⟩
        exfalso
        cases k with
        | zero => exact hne hΔ
        | succ m => exact (hprev 0 (Nat.succ_pos m)).1 hΔ
    · rw [if_neg hΔ]
      by_cases hc : ((ComputeSSC1Cost A Δ tc).1 : ℚ) > alphaThreshold ∨
          ((ComputeSSC1Cost A Δ tc).2 : ℚ) > betaThreshold
      · rw [if_pos hc]
        constructor
        · intro _
          refine ⟨0, Nat.succ_pos n, ?_, hΔ, ?_⟩
          · intro j hj
            exact absurd hj (Nat.not_lt_zero j)
          · exact fun hok => hok hc
        · intro _
          rfl
      · rw [if_neg hc]
        constructor
        · intro h
          obtain ⟨k, hk, hprev, hne, hcost⟩ := (ih (SSC1step A (Δ, tc))).mp h
          refine ⟨k + 1, by omega, ?_, hne, hcost⟩
          intro j hj
          cases j with
          | zero => exact ⟨hΔ, hc⟩
          | succ m => exact hprev m (by omega)
        · rintro ⟨k, hk, hprev, hne, hcost⟩
          cases k with
          | zero => exact absurd hc hcost
          | succ m =>
            apply (ih (SSC1step A (Δ, tc))).mpr
            refine ⟨m, by omega, ?_, hne, hcost⟩
            intro j hj
            exact hprev (j + 1) (by omega)

/-- Shared form of the abort characterisation for `SSC1` run from a
source vertex. -/
lemma ssc1_eq_abort_iff (A : AdjStore) (s : Nat) (alphaThreshold betaThreshold : ℚ)
    (fuel : Nat) :
    SSC1 A s alphaThreshold betaThreshold fuel = some none ↔
      ∃ k, k < fuel ∧ AbortsAt A s alphaThreshold betaThreshold k :=
  ssc1loop_abort_iff A alphaThreshold betaThreshold fuel ({s}, {s})

/-- Passing the cost check with tight thresholds implies passing it with
any looser thresholds. -/
lemma costOk_mono (A : AdjStore) {aT bT aT2 bT2 : ℚ} (h1 : aT2 ≤ aT) (h2 : bT2 ≤ bT)
    (st : Finset Nat × Finset Nat) (h : CostOk A aT2 bT2 st) : CostOk A aT bT st := by
  unfold CostOk at h ⊢
  push_neg at h ⊢
  exact ⟨le_trans h.1 h1, le_trans h.2 h2⟩

/-- C1: for every adjacency store and source vertex, whenever `SSC1`
returns a set (rather than the abort signal), the returned set contains
exactly the vertices reachable from the source by a directed path of any
length, the source included; no unreachable vertex is included. -/
theorem ssc1_computes_reachable_set (A : AdjStore) (s : Nat)
    (alphaThreshold betaThreshold : ℚ) (fuel : Nat) (r : Finset Nat) (v : Nat)
    (h : SSC1 A s alphaThreshold betaThreshold fuel = some (some r)) :
    v ∈ r ↔ Reachable A s v :=
  ssc1_sound A s alphaThreshold betaThreshold fuel r h v

/-- Witness for C1 on the store with edges 0→1, 1→2: `SSC1` from source 0
returns `{0, 1, 2}`, and membership of 2 agrees with reachability. -/
theorem ssc1_computes_reachable_set_witness :
    SSC1 sampleStore 0 100 100 5 = some (some ({0, 1, 2} : Finset Nat)) ∧
      (2 ∈ ({0, 1, 2} : Finset Nat) ↔ Reachable sampleStore 0 2) :=
  ⟨by decide, ssc1_computes_reachable_set sampleStore 0 100 100 5 {0, 1, 2} 2 (by decide)⟩

/-- C3: `SSC1` returns the abort signal (Python `None`, embedded as
`some none`, which carries no partial closure) if and only if some loop
iteration, with the costs computed on the frontier and accumulated
closure of that iteration before its expansion step, exceeds a threshold
— every earlier iteration having a non-empty frontier and passing the
check. -/
theorem ssc1_abort_iff_threshold_violation (A : AdjStore) (s : Nat)
    (alphaThreshold betaThreshold : ℚ) (fuel : Nat) :
    SSC1 A s alphaThreshold betaThreshold fuel = some none ↔
      ∃ k, k < fuel ∧ AbortsAt A s alphaThreshold betaThreshold k :=
  ssc1_eq_abort_iff A s alphaThreshold betaThreshold fuel

/-- C4: the cost model returns the pair whose first component is the sum
of the out-degrees of the frontier vertices plus
`|closureSoFar| * |frontier|`, and whose second component is
`|closureSoFar| + |frontier|`. -/
theorem computeSSC1Cost_formula (A : AdjStore) (frontier closureSoFar : Finset Nat) :
    ComputeSSC1Cost A frontier closureSoFar =
      ((∑ v ∈ frontier, (A.neighbors v).card) + closureSoFar.card * frontier.card,
        closureSoFar.card + frontier.card) := by
  simp only [ComputeSSC1Cost, Prod.mk.injEq]
  refine ⟨?_, trivial⟩
  congr 1
  apply Finset.sum_congr rfl
  intro v _
  cases hv : A.get? v <;> simp [AdjStore.neighbors, hv]

/-- C7: tightening the thresholds never delays the abort: if the SSC1
loop from `s` with thresholds `(aT, bT)` aborts at iteration `k`, then
with thresholds `aT2 ≤ aT` and `bT2 ≤ bT` it aborts at some iteration
`k2 ≤ k`. -/
theorem ssc1_threshold_monotonic (A : AdjStore) (s k : Nat) (aT bT aT2 bT2 : ℚ)
    (h1 : aT2 ≤ aT) (h2 : bT2 ≤ bT) (h : AbortsAt A s aT bT k) :
    ∃ k2, k2 ≤ k ∧ AbortsAt A s aT2 bT2 k2 := by
  obtain ⟨hprev, hne, hcost⟩ := h
  have hPk : ¬CostOk A aT2 bT2 (SSC1state A s k) :=
    fun hok => hcost (costOk_mono A h1 h2 _ hok)
  have hex : ∃ j, ¬CostOk A aT2 bT2 (SSC1state A s j) := ⟨k, hPk⟩
  refine ⟨Nat.find hex, Nat.find_min' hex hPk, ?_, ?_, Nat.find_spec hex⟩
  · intro j hj
    have hjk : j < k := lt_of_lt_of_le hj (Nat.find_min' hex hPk)
    exact ⟨(hprev j hjk).1, not_not.mp (Nat.find_min hex hj)⟩
  · rcases lt_or_eq_of_le (Nat.find_min' hex hPk) with hlt | heq
    · exact (hprev _ hlt).1
    · rw [heq]
      exact hne

/-- Witness for C7: on the store with edges 0→1, 1→2 the run with
`alphaThreshold = 1` aborts at iteration 0 (cost 2 > 1), and the tighter
run with `alphaThreshold = 0` aborts no later. -/
theorem ssc1_threshold_monotonic_witness :
    (0 : ℚ) ≤ 1 ∧ (100 : ℚ) ≤ 100 ∧ AbortsAt sampleStore 0 1 100 0 ∧
      ∃ k2, k2 ≤ 0 ∧ AbortsAt sampleStore 0 0 100 k2 :=
  ⟨by decide, by decide, by decide,
    ssc1_threshold_monotonic sampleStore 0 0 1 100 0 100 (by decide) (by decide) (by decide)⟩

/-- C8: for every (finite) adjacency store, source vertex and thresholds,
the SSC1 loop terminates within the explicit fuel `closureFuel`: it
returns either the abort signal or a closure, never running forever.  The
accumulated set `tc` only grows, stays inside the finite set
`insert s A.targets`, and each round's frontier is disjoint from the
previous `tc`. -/
theorem ssc1_terminates (A : AdjStore) (s : Nat) (alphaThreshold betaThreshold : ℚ) :
    ∃ result, SSC1 A s alphaThreshold betaThreshold (closureFuel A s) = some result := by
  have hsub : ({s} : Finset Nat) ⊆ insert s A.targets := by
    intro v hv
    rw [Finset.mem_singleton] at hv
    rw [hv]
    exact Finset.mem_insert_self s _
  have hcard : (insert s A.targets).card + 2 ≤ closureFuel A s + ({s} : Finset Nat).card := by
    rw [Finset.card_singleton]
    unfold closureFuel
    omega
  exact Option.ne_none_iff_exists'.mp
    (ssc1loop_ne_none A s alphaThreshold betaThreshold (closureFuel A s) {s} {s} hsub hcard)

lemma SSC2mark_mem (st : Finset Nat × List Nat) (w : Nat) (hw : w ∈ st.1) :
    SSC2mark st w = st := by
  unfold SSC2mark
  rw [if_pos hw]

lemma SSC2mark_not_mem (st : Finset Nat × List Nat) (w : Nat) (hw : w ∉ st.1) :
    SSC2mark st w = (insert w st.1, st.2 ++ [w]) := by
  unfold SSC2mark
  rw [if_neg hw]

lemma foldl_mark_fst : ∀ (ws : List Nat) (st : Finset Nat × List Nat),
    (ws.foldl SSC2mark st).1 = st.1 ∪ ws.toFinset := by
  intro ws
  induction ws with
  | nil =>
    intro st
    simp
  | cons w rest ih =>
    intro st
    rw [List.foldl_cons, ih (SSC2mark st w)]
    by_cases hw : w ∈ st.1
    · rw [SSC2mark_mem st w hw, List.toFinset_cons, Finset.union_insert,
        Finset.insert_eq_self.mpr (Finset.mem_union_left _ hw)]
    · rw [SSC2mark_not_mem st w hw, List.toFinset_cons, Finset.union_insert,
        Finset.insert_union]

lemma foldl_mark_inv (d0 : Finset Nat) : ∀ (ws : List Nat) (st : Finset Nat × List Nat),
    MarkInv d0 st → MarkInv d0 (ws.foldl SSC2mark st) := by
  intro ws
  induction ws with
  | nil =>
    intro st h
    exact h
  | cons w rest ih =>
    intro st h
    rw [List.foldl_cons]
    apply ih
    by_cases hw : w ∈ st.1
    · rw [SSC2mark_mem st w hw]
      exact h
    · rw [SSC2mark_not_mem st w hw]
      obtain ⟨hnd, hto, hsub⟩ := h
      have hwd0 : w ∉ d0 := fun hwd => hw (hsub hwd)
      have hwl : w ∉ st.2 := by
        intro hmem
        have hmem2 : w ∈ st.2.toFinset := List.mem_toFinset.mpr hmem
        rw [hto] at hmem2
        exact hw (Finset.mem_sdiff.mp hmem2).1
      refine ⟨hnd.append (List.nodup_singleton w) (List.disjoint_singleton.mpr hwl), ?_, ?_⟩
      · rw [List.toFinset_append, hto]
        ext a
        simp only [Finset.mem_union, Finset.mem_sdiff, List.toFinset_cons,
          List.toFinset_nil, insert_emptyc_eq, Finset.mem_singleton, Finset.mem_insert]
        constructor
        · rintro (⟨ha1, ha2⟩ | ha)
          · exact ⟨Or.inr ha1, ha2⟩
          · rw [ha]
            exact ⟨Or.inl rfl, hwd0⟩
        · rintro ⟨ha | ha, had⟩
          · exact Or.inr ha
          · exact Or.inl ⟨ha, had⟩
      · exact hsub.trans (Finset.subset_insert w st.1)

lemma biUnion_neighbors_subset_targets (A : AdjStore) (S : Finset Nat) :
    S.biUnion A.neighbors ⊆ A.targets := by
  intro w hw
  obtain ⟨v, _, hvw⟩ := Finset.mem_biUnion.mp hw
  exact neighbors_subset_targets A v hvw

lemma ssc2round_fst (A : AdjStore) : ∀ (F : List Nat) (st : Finset Nat × List Nat),
    (F.foldl (fun st Z => (((A.get? Z).getD ∅).sort (· ≤ ·)).foldl SSC2mark st) st).1
      = st.1 ∪ F.toFinset.biUnion A.neighbors := by
  intro F
  induction F with
  | nil =>
    intro st
    simp
  | cons Z rest ih =>
    intro st
    rw [List.foldl_cons, ih, foldl_mark_fst]
    have hsort : (((A.get? Z).getD ∅).sort (· ≤ ·)).toFinset = A.neighbors Z :=
      Finset.sort_toFinset _ _
    rw [hsort]
    ext a
    simp only [Finset.mem_union, Finset.mem_biUnion, List.toFinset_cons, Finset.mem_insert]
    constructor
    · rintro ((h | h) | ⟨u, hu, ha⟩)
      · exact Or.inl h
      · exact Or.inr ⟨Z, Or.inl rfl, h⟩
      · exact Or.inr ⟨u, Or.inr hu, ha⟩
    · rintro (h | ⟨u, hu | hu, ha⟩)
      · exact Or.inl (Or.inl h)
      · rw [hu] at ha
        exact Or.inl (Or.inr ha)
      · exact Or.inr ⟨u, hu, ha⟩

lemma ssc2round_inv (A : AdjStore) (d0 : Finset Nat) :
    ∀ (F : List Nat) (st : Finset Nat × List Nat), MarkInv d0 st →
      MarkInv d0 (F.foldl (fun st Z => (((A.get? Z).getD ∅).sort (· ≤ ·)).foldl SSC2mark st) st) := by
  intro F
  induction F with
  | nil =>
    intro st h
    exact h
  | cons Z rest ih =>
    intro st h
    rw [List.foldl_cons]
    exact ih _ (foldl_mark_inv d0 _ st h)

/-- Specification of one SSC2 round: the visited set grows by the
successors of the frontier, and the appended entries are exactly the
newly visited vertices, each appended once. -/
lemma ssc2round_spec (A : AdjStore) (F : List Nat) (d : Finset Nat) :
    (SSC2round A F d).1 = d ∪ F.toFinset.biUnion A.neighbors ∧
    (SSC2round A F d).2.Nodup ∧
    (SSC2round A F d).2.toFinset = F.toFinset.biUnion A.neighbors \ d := by
  unfold SSC2round
  have h1 := ssc2round_fst A F (d, [])
  have h2 := ssc2round_inv A d F (d, [])
    ⟨List.nodup_nil, by simp, Finset.Subset.refl d⟩
  obtain ⟨hnd, hto, _⟩ := h2
  dsimp only at h1 hto
  refine ⟨h1, hnd, ?_⟩
  rw [hto, h1, Finset.union_sdiff_left]

lemma ssc2Inv_step (A : AdjStore) (s : Nat) (F : List Nat) (d : Finset Nat)
    (h : SSC2Inv A s (F, d)) :
    SSC2Inv A s ((SSC2round A F d).2, (SSC2round A F d).1) := by
  obtain ⟨hs, hsub, hreach, hclosed⟩ := h
  obtain ⟨h1, _, h3⟩ := ssc2round_spec A F d
  rw [h1]
  constructor
  · exact Finset.mem_union_left _ hs
  refine ⟨?_, ?_, ?_⟩
  · intro v hv
    rw [List.mem_toFinset] at hv
    have hv2 : v ∈ (SSC2round A F d).2.toFinset := List.mem_toFinset.mpr hv
    rw [h3] at hv2
    exact Finset.mem_union_right _ (Finset.mem_sdiff.mp hv2).1
  · intro v hv
    rcases Finset.mem_union.mp hv with hvd | hvN
    · exact hreach v hvd
    · obtain ⟨u, hu, hvw⟩ := Finset.mem_biUnion.mp hvN
      exact Relation.ReflTransGen.tail (hreach u (hsub (List.mem_toFinset.mpr (List.mem_toFinset.mp hu)))) hvw
  · intro v hv hvout w hw
    have hvout2 : v ∉ F.toFinset.biUnion A.neighbors \ d := by
      rw [← h3]
      intro hc
      exact hvout (List.mem_toFinset.mp hc)
    have hvd : v ∈ d := by
      rcases Finset.mem_union.mp hv with hvd | hvN
      · exact hvd
      · by_contra hvd
        exact hvout2 (Finset.mem_sdiff.mpr ⟨hvN, hvd⟩)
    by_cases hvF : v ∈ F
    · exact Finset.mem_union_right _
        (Finset.mem_biUnion.mpr ⟨v, List.mem_toFinset.mpr hvF, hw⟩)
    · exact Finset.mem_union_left _ (hclosed v hvd hvF w hw)

lemma ssc2loop_sound (A : AdjStore) (s : Nat) :
    ∀ (fuel : Nat) (F : List Nat) (d r : Finset Nat), SSC2Inv A s (F, d) →
      SSC2loop A fuel F d = some r → ∀ v, v ∈ r ↔ Reachable A s v := by
  intro fuel
  induction fuel with
  | zero =>
    intro F d r _ h
    simp [SSC2loop] at h
  | succ n ih =>
    intro F d r hinv h
    simp only [SSC2loop] at h
    by_cases hF : F = []
    · rw [if_pos hF] at h
      subst hF
      injection h with h1
      intro v
      rw [← h1]
      exact closed_mem_iff_reachable A s d hinv.1 hinv.2.2.1
        (fun u hu w hw => hinv.2.2.2 u hu (List.not_mem_nil u) w hw) v
    · rw [if_neg hF] at h
      exact ih _ _ r (ssc2Inv_step A s F d hinv) h

lemma ssc2loop_ne_none (A : AdjStore) (s : Nat) :
    ∀ (fuel : Nat) (F : List Nat) (d : Finset Nat), d ⊆ insert s A.targets →
      (insert s A.targets).card + 2 ≤ fuel + d.card →
      SSC2loop A fuel F d ≠ none := by
  intro fuel
  induction fuel with
  | zero =>
    intro F d hsub hcard
    exfalso
    have h1 : d.card ≤ (insert s A.targets).card := Finset.card_le_card hsub
    omega
  | succ n ih =>
    intro F d hsub hcard
    simp only [SSC2loop]
    by_cases hF : F = []
    · simp [hF]
    · rw [if_neg hF]
      obtain ⟨h1, _, h3⟩ := ssc2round_spec A F d
      have hsub2 : (SSC2round A F d).1 ⊆ insert s A.targets := by
        rw [h1]
        apply Finset.union_subset hsub
        exact (biUnion_neighbors_subset_targets A F.toFinset).trans
          (Finset.subset_insert s A.targets)
      cases hout : (SSC2round A F d).2 with
      | nil =>
        cases n with
        | zero =>
          exfalso
          have hle : d.card ≤ (insert s A.targets).card := Finset.card_le_card hsub
          omega
        | succ m =>
          simp [SSC2loop]
      | cons a rest =>
        apply ih
        · exact hsub2
        · have hamem : a ∈ (SSC2round A F d).2.toFinset := by
            rw [hout]
            exact List.mem_toFinset.mpr (List.mem_cons_self a rest)
          rw [h3] at hamem
          have hssub : d ⊂ (SSC2round A F d).1 := by
            rw [h1]
            refine ⟨Finset.subset_union_left, ?_⟩
            intro hback
            have had : a ∈ d := hback
              (Finset.mem_union_right _ (Finset.mem_sdiff.mp hamem).1)
            exact (Finset.mem_sdiff.mp hamem).2 had
          have hlt : d.card < (SSC2round A F d).1.card := Finset.card_lt_card hssub
          omega

lemma reachable_lt_maxV (A : AdjStore) (s maxV : Nat) (hs : s < maxV)
    (hA : ∀ v w, w ∈ A.neighbors v → w < maxV) :
    ∀ v, Reachable A s v → v < maxV := by
  intro v h
  induction h with
  | refl => exact hs
  | tail _ hbc _ => exact hA _ _ hbc

lemma ssc2Inv_init (A : AdjStore) (s : Nat) : SSC2Inv A s ([s], {s}) := by
  refine ⟨Finset.mem_singleton_self s, ?_, ?_, ?_⟩
  · intro v hv
    simpa using hv
  · intro v hv
    rw [Finset.mem_singleton] at hv
    rw [hv]
    exact Relation.ReflTransGen.refl
  · intro v hv hnv w _
    exfalso
    rw [Finset.mem_singleton] at hv
    exact hnv (by rw [hv]; exact List.mem_singleton_self s)

/-- C2: on a store whose edge endpoints all lie below `maxVertexNumber`
and a source below `maxVertexNumber`, whenever `SSC1` returns a closure,
`SSC2` (on cleared buffers) succeeds and returns a set equal to it. -/
theorem ssc2_agrees_with_ssc1 (A : AdjStore) (s maxVertexNumber : Nat)
    (alphaThreshold betaThreshold : ℚ) (fuel : Nat) (r : Finset Nat)
    (hs : s < maxVertexNumber)
    (hA : ∀ v w, w ∈ A.neighbors v → w < maxVertexNumber)
    (h : SSC1 A s alphaThreshold betaThreshold fuel = some (some r)) :
    SSC2 A s maxVertexNumber (closureFuel A s) = some r := by
  have hsub : ({s} : Finset Nat) ⊆ insert s A.targets := by
    intro v hv
    rw [Finset.mem_singleton] at hv
    rw [hv]
    exact Finset.mem_insert_self s _
  have hcard : (insert s A.targets).card + 2 ≤ closureFuel A s + ({s} : Finset Nat).card := by
    rw [Finset.card_singleton]
    unfold closureFuel
    omega
  obtain ⟨d, hd⟩ := Option.ne_none_iff_exists'.mp
    (ssc2loop_ne_none A s (closureFuel A s) [s] {s} hsub hcard)
  have hsound := ssc2loop_sound A s (closureFuel A s) [s] {s} d (ssc2Inv_init A s) hd
  have hr := ssc1_sound A s alphaThreshold betaThreshold fuel r h
  have hdr : d = r := Finset.ext fun v => by rw [hsound v, hr v]
  unfold SSC2
  rw [hd]
  simp only [Option.map_some']
  rw [hdr]
  congr 1
  apply Finset.filter_true_of_mem
  intro x hx
  exact reachable_lt_maxV A s maxVertexNumber hs hA x ((hr x).mp hx)

lemma sampleStore_neighbors_lt : ∀ v w, w ∈ sampleStore.neighbors v → w < 3 := by
  intro v w hw
  by_cases h0 : v = 0
  · subst h0
    have h : sampleStore.neighbors 0 = {1} := by decide
    rw [h, Finset.mem_singleton] at hw
    omega
  · by_cases h1 : v = 1
    · subst h1
      have h : sampleStore.neighbors 1 = {2} := by decide
      rw [h, Finset.mem_singleton] at hw
      omega
    · have hv : v ∉ sampleStore.keys := by
        simp only [sampleStore]
        simp [h0, h1]
      have h : sampleStore.neighbors v = ∅ := by
        simp [AdjStore.neighbors, AdjStore.get?, hv]
      rw [h] at hw
      exact absurd hw (Finset.not_mem_empty w)

/-- Witness for C2 on the store with edges 0→1, 1→2 and
`maxVertexNumber = 3`: SSC1 and SSC2 both return `{0, 1, 2}`. -/
theorem ssc2_agrees_with_ssc1_witness :
    (0 : Nat) < 3 ∧
      SSC1 sampleStore 0 100 100 5 = some (some ({0, 1, 2} : Finset Nat)) ∧
      SSC2 sampleStore 0 3 (closureFuel sampleStore 0) = some ({0, 1, 2} : Finset Nat) :=
  ⟨by decide, by decide,
    ssc2_agrees_with_ssc1 sampleStore 0 3 100 100 5 {0, 1, 2} (by decide)
      sampleStore_neighbors_lt (by decide)⟩

/-- All buffer indices and write counts of the SSC2 loop stay in bounds:
at every loop state, every visited index and every frontier entry is
below `maxVertexNumber`, the written prefix has no duplicates, and its
length (the number of entries appended in the previous round) is at most
`maxVertexNumber`. -/
lemma ssc2state_bounds (A : AdjStore) (s maxV : Nat) (hs : s < maxV)
    (hA : ∀ v w, w ∈ A.neighbors v → w < maxV) :
    ∀ k, (∀ v ∈ (SSC2state A s k).2, v < maxV) ∧
      (∀ v ∈ (SSC2state A s k).1, v < maxV) ∧
      (SSC2state A s k).1.Nodup ∧ (SSC2state A s k).1.length ≤ maxV := by
  intro k
  induction k with
  | zero =>
    refine ⟨?_, ?_, List.nodup_singleton s, ?_⟩
    · intro v hv
      have hv2 : v ∈ ({s} : Finset Nat) := hv
      rw [Finset.mem_singleton] at hv2
      rw [hv2]
      exact hs
    · intro v hv
      have hv2 : v ∈ [s] := hv
      rw [List.mem_singleton] at hv2
      rw [hv2]
      exact hs
    · have h1 : (SSC2state A s 0).1.length = 1 := rfl
      rw [h1]
      omega
  | succ n ih =>
    obtain ⟨ihd, _, _, _⟩ := ih
    have hstep : SSC2state A s (n + 1) = SSC2stateStep A (SSC2state A s n) :=
      Function.iterate_succ_apply' (SSC2stateStep A) n ([s], {s})
    rw [hstep]
    obtain ⟨h1, h2, h3⟩ := ssc2round_spec A (SSC2state A s n).1 (SSC2state A s n).2
    have hN : ∀ w ∈ (SSC2state A s n).1.toFinset.biUnion A.neighbors, w < maxV := by
      intro w hw
      obtain ⟨u, _, huw⟩ := Finset.mem_biUnion.mp hw
      exact hA u w huw
    refine ⟨?_, ?_, h2, ?_⟩
    · intro v hv
      have hv2 : v ∈ (SSC2round A (SSC2state A s n).1 (SSC2state A s n).2).1 := hv
      rw [h1] at hv2
      rcases Finset.mem_union.mp hv2 with h | h
      · exact ihd v h
      · exact hN v h
    · intro v hv
      have hv2 : v ∈ (SSC2round A (SSC2state A s n).1 (SSC2state A s n).2).2 := hv
      have hv3 := List.mem_toFinset.mpr hv2
      rw [h3] at hv3
      exact hN v (Finset.mem_sdiff.mp hv3).1
    · have hlen : (SSC2round A (SSC2state A s n).1 (SSC2state A s n).2).2.toFinset.card
          = (SSC2round A (SSC2state A s n).1 (SSC2state A s n).2).2.length :=
        List.toFinset_card_of_nodup h2
      have hsubr : (SSC2round A (SSC2state A s n).1 (SSC2state A s n).2).2.toFinset ⊆
          Finset.range maxV := by
        intro v hv
        rw [Finset.mem_range]
        rw [h3] at hv
        exact hN v (Finset.mem_sdiff.mp hv).1
      have hcard := Finset.card_le_card hsubr
      rw [Finset.card_range, hlen] at hcard
      exact hcard

/-- C10: under the precondition that the source vertex and every edge
endpoint are below `maxVertexNumber`, every buffer access of SSC2 stays
in bounds at every loop state: each visited index set on the bit-vector
`d` and each frontier entry read from the written prefix of `bigDeltaTC`
is below `maxVertexNumber`, and each round appends at most
`maxVertexNumber` distinct entries into `smallDeltaTC` (so the write
index `l` never leaves the array). -/
theorem ssc2_buffer_accesses_in_bounds (A : AdjStore) (s maxVertexNumber k v : Nat)
    (hs : s < maxVertexNumber)
    (hA : ∀ u w, w ∈ A.neighbors u → w < maxVertexNumber) :
    (v ∈ (SSC2state A s k).2 → v < maxVertexNumber) ∧
      (v ∈ (SSC2state A s k).1 → v < maxVertexNumber) ∧
      (SSC2state A s k).1.Nodup ∧ (SSC2state A s k).1.length ≤ maxVertexNumber := by
  obtain ⟨hd, hf, hnd, hlen⟩ := ssc2state_bounds A s maxVertexNumber hs hA k
  exact ⟨hd v, hf v, hnd, hlen⟩

/-- Witness for C10 on the store with edges 0→1, 1→2, at loop state 1 and
vertex 2. -/
theorem ssc2_buffer_accesses_in_bounds_witness :
    (0 : Nat) < 3 ∧
      ((2 ∈ (SSC2state sampleStore 0 1).2 → 2 < 3) ∧
        (2 ∈ (SSC2state sampleStore 0 1).1 → 2 < 3) ∧
        (SSC2state sampleStore 0 1).1.Nodup ∧
        (SSC2state sampleStore 0 1).1.length ≤ 3) :=
  ⟨by decide,
    ssc2_buffer_accesses_in_bounds sampleStore 0 3 1 2 (by decide) sampleStore_neighbors_lt⟩

lemma ssc2phase_tags (A : AdjStore) (maxV : Nat) :
    ∀ items, ∃ b, (SSCWorkerSSC2 A maxV items).map Prod.fst = List.replicate b Engine.ssc2 := by
  intro items
  induction items with
  | nil => exact ⟨0, rfl⟩
  | cons x rest ih =>
    cases x with
    | none => exact ⟨0, rfl⟩
    | some v =>
      obtain ⟨b, hb⟩ := ih
      refine ⟨b + 1, ?_⟩
      simp only [SSCWorkerSSC2, List.map_cons, hb, List.replicate_succ]

/-- C5: the worker switches engine at most once and never back: the tag
sequence of its pushed results is a block of SSC1 results followed by a
block of SSC2 results; moreover when the first aborting vertex `v` is
reached (all earlier pulled items being vertices whose SSC1 run
succeeded), the worker pushes the SSC2 recomputation of that very vertex
`v` and processes every later pulled vertex with SSC2. -/
theorem worker_switch_sticky (A : AdjStore) (alphaThreshold betaThreshold : ℚ)
    (maxVertexNumber : Nat) (items : List (Option Nat)) :
    (∃ a b, (SSCWorker A alphaThreshold betaThreshold maxVertexNumber items).map Prod.fst =
        List.replicate a Engine.ssc1 ++ List.replicate b Engine.ssc2) ∧
    (∀ pre v rest, items = pre ++ some v :: rest →
      (∀ x ∈ pre, ∃ w tc, x = some w ∧
        SSC1 A w alphaThreshold betaThreshold (closureFuel A w) = some (some tc)) →
      SSC1 A v alphaThreshold betaThreshold (closureFuel A v) = some none →
      ∃ res1, SSCWorker A alphaThreshold betaThreshold maxVertexNumber items =
          res1 ++ (Engine.ssc2, SSC2run A v maxVertexNumber) ::
            SSCWorkerSSC2 A maxVertexNumber rest ∧
        ∀ p ∈ res1, p.1 = Engine.ssc1) := by
  constructor
  · induction items with
    | nil => exact ⟨0, 0, rfl⟩
    | cons x rest ih =>
      cases x with
      | none => exact ⟨0, 0, rfl⟩
      | some v =>
        cases hssc : SSC1 A v alphaThreshold betaThreshold (closureFuel A v) with
        | none =>
          obtain ⟨b, hb⟩ := ssc2phase_tags A maxVertexNumber rest
          refine ⟨0, b + 1, ?_⟩
          simp only [SSCWorker, hssc, List.map_cons, hb, List.replicate_succ,
            List.replicate_zero, List.nil_append]
        | some tcopt =>
          cases tcopt with
          | none =>
            obtain ⟨b, hb⟩ := ssc2phase_tags A maxVertexNumber rest
            refine ⟨0, b + 1, ?_⟩
            simp only [SSCWorker, hssc, List.map_cons, hb, List.replicate_succ,
              List.replicate_zero, List.nil_append]
          | some tc =>
            obtain ⟨a, b, hab⟩ := ih
            refine ⟨a + 1, b, ?_⟩
            simp only [SSCWorker, hssc, List.map_cons, hab, List.replicate_succ,
              List.cons_append]
  · intro pre v rest hitems hpre habort
    subst hitems
    revert hpre
    induction pre with
    | nil =>
      intro _
      refine ⟨[], ?_, ?_⟩
      · simp only [List.nil_append, SSCWorker, habort]
      · intro p hp
        exact absurd hp (List.not_mem_nil p)
    | cons x pre2 ih =>
      intro hpre
      obtain ⟨w, tc, hx, hw⟩ := hpre x (List.mem_cons_self x pre2)
      subst hx
      obtain ⟨res1, hres, htags⟩ := ih fun y hy => hpre y (List.mem_cons_of_mem _ hy)
      refine ⟨(Engine.ssc1, tc) :: res1, ?_, ?_⟩
      · simp only [List.cons_append, SSCWorker, hw]
        exact congrArg _ hres
      · intro p hp
        rcases List.mem_cons.mp hp with h | h
        · rw [h]
        · exact htags p h

lemma enqueueAll_ok (capacity : Nat) : ∀ (items q : List (Option Nat)),
    q.length + items.length ≤ capacity →
    enqueueAll capacity q items = Except.ok (q ++ items) := by
  intro items
  induction items with
  | nil =>
    intro q _
    simp [enqueueAll]
  | cons x xs ih =>
    intro q h
    have hlt : q.length < capacity := by
      simp only [List.length_cons] at h
      omega
    simp only [enqueueAll, putBounded, if_pos hlt]
    rw [ih (q ++ [x]) (by simp only [List.length_append, List.length_cons,
      List.length_nil, List.length_cons] at h ⊢; omega)]
    simp

lemma enqueueAll_error (capacity : Nat) : ∀ (items q : List (Option Nat)),
    q.length ≤ capacity → capacity < q.length + items.length →
    enqueueAll capacity q items = Except.error () := by
  intro items
  induction items with
  | nil =>
    intro q h1 h2
    exfalso
    simp only [List.length_nil] at h2
    omega
  | cons x xs ih =>
    intro q h1 h2
    simp only [enqueueAll, putBounded]
    by_cases hlt : q.length < capacity
    · rw [if_pos hlt]
      exact ih (q ++ [x])
        (by simp only [List.length_append, List.length_cons, List.length_nil]; omega)
        (by simp only [List.length_append, List.length_cons,
          List.length_nil] at h2 ⊢; omega)
    · rw [if_neg hlt]

lemma workerConsumed_count_none : ∀ items : List (Option Nat), none ∈ items →
    (workerConsumed items).count none = 1 := by
  intro items
  induction items with
  | nil =>
    intro h
    exact absurd h (List.not_mem_nil none)
  | cons x rest ih =>
    intro h
    cases x with
    | none => rfl
    | some v =>
      have hrest : none ∈ rest := by
        rcases List.mem_cons.mp h with h1 | h1
        · exact Option.noConfusion h1
        · exact h1
      simp only [workerConsumed, List.count_cons]
      rw [ih hrest]
      simp

lemma count_map_some (sources : List Nat) (v : Nat) :
    (sources.map some).count (some v) = sources.count v := by
  induction sources with
  | nil => rfl
  | cons a rest ih =>
    rw [List.map_cons, List.count_cons, List.count_cons, ih]
    exact rfl

lemma count_eq_one_of_nodup_mem : ∀ (l : List Nat) (v : Nat), l.Nodup → v ∈ l → l.count v = 1 := by
  intro l
  induction l with
  | nil =>
    intro v _ h
    exact absurd h (List.not_mem_nil v)
  | cons a rest ih =>
    intro v hnd hv
    rcases List.mem_cons.mp hv with h | h
    · subst h
      rw [List.count_cons_self, List.count_eq_zero_of_not_mem (List.nodup_cons.mp hnd).1]
    · have hne : v ≠ a := by
        intro he
        subst he
        exact (List.nodup_cons.mp hnd).1 h
      rw [List.count_cons_of_ne hne]
      exact ih v (List.nodup_cons.mp hnd).2 h

/-- C9: with sufficient queue capacity the producer enqueues each source
vertex exactly once followed by exactly `workerCount` sentinels, where
`workerCount = min(availableParallelism, |sourceVertices|)`; a worker
consumes exactly one sentinel before terminating; and a sentinel is a
distinct value, never a valid vertex id. -/
theorem queue_and_sentinel_invariants (parallelism capacity : Nat) (sources : List Nat)
    (v : Nat) (items : List (Option Nat)) (hnd : sources.Nodup)
    (hcap : sources.length + closureWorkerCount parallelism sources ≤ capacity)
    (hsent : none ∈ items) :
    ∃ q, SourceVertexQueueAdder capacity sources (closureWorkerCount parallelism sources) =
        Except.ok q ∧
      q.count (some v) = (if v ∈ sources then 1 else 0) ∧
      q.count none = closureWorkerCount parallelism sources ∧
      closureWorkerCount parallelism sources = min parallelism sources.length ∧
      (workerConsumed items).count none = 1 ∧
      ∀ w : Nat, (some w : Option Nat) ≠ none := by
  refine ⟨sources.map some ++ List.replicate (closureWorkerCount parallelism sources) none,
    ?_, ?_, ?_, rfl, workerConsumed_count_none items hsent, fun w => by simp⟩
  · unfold SourceVertexQueueAdder
    apply enqueueAll_ok
    simp only [List.length_nil, List.length_append, List.length_map, List.length_replicate]
    omega
  · rw [List.count_append]
    have h1 : (List.replicate (closureWorkerCount parallelism sources)
        (none : Option Nat)).count (some v) = 0 := by
      apply List.count_eq_zero_of_not_mem
      intro hmem
      exact Option.noConfusion (List.eq_of_mem_replicate hmem)
    have h2 : (sources.map some).count (some v) = sources.count v :=
      count_map_some sources v
    rw [h1, h2, Nat.add_zero]
    by_cases hv : v ∈ sources
    · rw [if_pos hv]
      exact count_eq_one_of_nodup_mem sources v hnd hv
    · rw [if_neg hv]
      exact List.count_eq_zero_of_not_mem hv
  · rw [List.count_append]
    have h1 : (sources.map some).count (none : Option Nat) = 0 := by
      apply List.count_eq_zero_of_not_mem
      intro hmem
      obtain ⟨a, _, hsome⟩ := List.mem_map.mp hmem
      exact Option.noConfusion hsome
    rw [h1, List.count_replicate_self, Nat.zero_add]

/-- Witness for C9: two sources `[5, 7]`, parallelism 4 (worker count 2),
capacity 10, and a worker item stream ending in a sentinel. -/
theorem queue_and_sentinel_invariants_witness :
    ([5, 7] : List Nat).Nodup ∧
      ([5, 7] : List Nat).length + closureWorkerCount 4 [5, 7] ≤ 10 ∧
      none ∈ [some 5, none] ∧
      ∃ q, SourceVertexQueueAdder 10 [5, 7] (closureWorkerCount 4 [5, 7]) = Except.ok q ∧
        q.count (some 5) = (if 5 ∈ ([5, 7] : List Nat) then 1 else 0) ∧
        q.count none = closureWorkerCount 4 [5, 7] ∧
        closureWorkerCount 4 [5, 7] = min 4 ([5, 7] : List Nat).length ∧
        (workerConsumed [some 5, none]).count none = 1 ∧
        ∀ w : Nat, (some w : Option Nat) ≠ none :=
  ⟨by decide, by decide, by decide,
    queue_and_sentinel_invariants 4 10 [5, 7] 5 [some 5, none]
      (by decide) (by decide) (by decide)⟩

/-- Counterexample to C6 as stated: with capacity 0, one source vertex
and one worker, the producer hits `queue.Full` and exits with status 1,
but the coordinator — which only checks the producer's exit code after
receiving a result (line 197) — receives no result and stays blocked in
`SSCQueue.get()` forever: the run does not terminate, so it is not
aborted deterministically with a non-zero exit. -/
theorem queue_full_halt_counterexample :
    SourceVertexQueueAdder 0 [0] 1 = Except.error () ∧
      coordinatorDrain true 1 [] 0 ∅ = CoordOutcome.blocked :=
  ⟨rfl, rfl⟩

/-- C6 amended: if the work queue cannot accept all work items, the
producer terminates with non-zero status and the coordinator never
returns an aggregate closure (partial or complete): having observed the
producer's failure, it aborts with non-zero status upon the first result
it receives, or blocks forever if no result arrives.  (The whole-run
halt is not deterministic: the blocked case is reachable.) -/
theorem queue_full_aborts_amended (capacity cpuCount total : Nat)
    (sources : List Nat) (received : List (Finset Nat))
    (hcap : capacity < sources.length + cpuCount) (htot : 1 ≤ total) :
    SourceVertexQueueAdder capacity sources cpuCount = Except.error () ∧
      (coordinatorDrain true total received 0 ∅ = CoordOutcome.fatalExit ∨
        coordinatorDrain true total received 0 ∅ = CoordOutcome.blocked) := by
  constructor
  · unfold SourceVertexQueueAdder
    apply enqueueAll_error
    · exact Nat.zero_le capacity
    · simp only [List.length_nil, List.length_append, List.length_map,
        List.length_replicate, Nat.zero_add]
      omega
  · cases received with
    | nil =>
      right
      simp only [coordinatorDrain]
      rw [if_neg (by omega)]
    | cons r rest =>
      left
      simp only [coordinatorDrain]
      rw [if_neg (by omega), if_pos trivial]

/-- Witness for the amended C6: capacity 0, one source, one worker, one
result arriving at the coordinator. -/
theorem queue_full_aborts_amended_witness :
    (0 : Nat) < ([0] : List Nat).length + 1 ∧ (1 : Nat) ≤ 1 ∧
      (SourceVertexQueueAdder 0 [0] 1 = Except.error () ∧
        (coordinatorDrain true 1 [{0}] 0 ∅ = CoordOutcome.fatalExit ∨
          coordinatorDrain true 1 [{0}] 0 ∅ = CoordOutcome.blocked)) :=
  ⟨by decide, by decide,
    queue_full_aborts_amended 0 1 1 [0] [{0}] (by decide) (by decide)⟩

end SSC12
